import Mathlib

/-!
Verification of the `caesar` repository's Vigenère cipher and Kasiski attack
tools (`src/vigenere.cpp`, `src/kasiski_attack.cpp`) against their
natural-language specification.

Characters are modelled as their byte codes (`Nat`), texts as `List Nat`.
C `int` arithmetic is modelled by `Int`; since every `%` in the sources is
applied to a non-negative left operand and a positive right operand, C's
truncated `%` agrees with Lean's `Int.emod` on all values that occur.
`double` arithmetic is modelled by `ℚ` (exact rationals).
-/

namespace Caesar

/-- `std::isalpha` in the C locale: ASCII letters only. -/
def isalpha (c : Nat) : Bool :=
  (65 ≤ c && c ≤ 90) || (97 ≤ c && c ≤ 122)

/-- `std::toupper` in the C locale: maps `a`..`z` to `A`..`Z`, identity otherwise. -/
def toupper (c : Nat) : Nat :=
  if 97 ≤ c ∧ c ≤ 122 then c - 32 else c

theorem isalpha_iff (c : Nat) :
    isalpha c = true ↔ (65 ≤ c ∧ c ≤ 90) ∨ (97 ≤ c ∧ c ≤ 122) := by
  simp [isalpha, Bool.or_eq_true, Bool.and_eq_true, decide_eq_true_iff]

theorem toupper_of_alpha {c : Nat} (h : isalpha c = true) :
    65 ≤ toupper c ∧ toupper c ≤ 90 := by
  rw [isalpha_iff] at h
  unfold toupper
  rcases h with h | h <;> [skip; skip] <;> split <;> omega

theorem toupper_upper {c : Nat} (h1 : 65 ≤ c) (h2 : c ≤ 90) : toupper c = c := by
  unfold toupper
  split <;> omega

/-! ## The Vigenère primitive (`src/vigenere.cpp`, `vigenere_process`) -/

/-- The per-character loop of `vigenere_process`: `kp` is the running
`key_pos`.  For an alphabetic character the code upper-cases it, reads the key
letter at `key_pos % key.length()`, turns it into a shift, and replaces the
character by `(pos + direction*shift + 26) % 26` re-encoded as a letter,
advancing `key_pos`; non-alphabetic characters pass through and do not advance
`key_pos`. -/
def vigenere_go (key : List Nat) (direction : Int) : Nat → List Nat → List Nat
  | _, [] => []
  | kp, c :: cs =>
    if isalpha c then
      let cu := toupper c
      let key_letter := toupper (key.getD (kp % key.length) 0)
      let shift : Int := (key_letter : Int) - 65
      let pos : Int := (cu : Int) - 65
      let pos2 : Int := (pos + direction * shift + 26) % 26
      (pos2.toNat + 65) :: vigenere_go key direction (kp + 1) cs
    else
      c :: vigenere_go key direction kp cs

/-- `vigenere_process(text, key, direction)` from `src/vigenere.cpp`. -/
def vigenere_process (text key : List Nat) (direction : Int) : List Nat :=
  vigenere_go key direction 0 text

/-- `vigenere_encrypt` = `vigenere_process` with direction `+1`. -/
def vigenere_encrypt (text key : List Nat) : List Nat :=
  vigenere_process text key 1

/-- `vigenere_decrypt` = `vigenere_process` with direction `-1`. -/
def vigenere_decrypt (text key : List Nat) : List Nat :=
  vigenere_process text key (-1)

/-- Case-folding a text to uppercase at its letter positions. -/
def upcase_letters (text : List Nat) : List Nat :=
  text.map (fun c => if isalpha c then toupper c else c)

theorem vigenere_go_roundtrip (key : List Nat) (hk : key ≠ [])
    (hka : ∀ k ∈ key, isalpha k = true) :
    ∀ (cs : List Nat) (kp : Nat),
      vigenere_go key (-1) kp (vigenere_go key 1 kp cs) =
        cs.map (fun c => if isalpha c then toupper c else c) := by
  intro cs
  induction cs with
  | nil => intro kp; simp [vigenere_go]
  | cons c cs ih =>
    intro kp
    by_cases hc : isalpha c = true
    · have hkey : key.length ≠ 0 := by
        simpa [List.length_eq_zero] using hk
      have hmem : key.getD (kp % key.length) 0 ∈ key := by
        rw [List.getD_eq_getElem _ _ (Nat.mod_lt _ (Nat.pos_of_ne_zero hkey))]
        exact List.getElem_mem _
      have hkl := toupper_of_alpha (hka _ hmem)
      have hcu := toupper_of_alpha hc
      rw [vigenere_go, if_pos hc]
      set cu := toupper c with hcu_def
      set kl := toupper (key.getD (kp % key.length) 0) with hkl_def
      set e : Int := (((cu : Int) - 65) + 1 * ((kl : Int) - 65) + 26) % 26 with he_def
      have he_lb : 0 ≤ e := Int.emod_nonneg _ (by norm_num)
      have he_ub : e < 26 := Int.emod_lt_of_pos _ (by norm_num)
      have henc_alpha : isalpha (e.toNat + 65) = true := by
        rw [isalpha_iff]; left; omega
      rw [vigenere_go, if_pos henc_alpha]
      have htoup : toupper (e.toNat + 65) = e.toNat + 65 := toupper_upper (by omega) (by omega)
      have hdec : ((((e.toNat + 65 : Nat) : Int) - 65) + (-1) * ((kl : Int) - 65) + 26) % 26
          = (cu : Int) - 65 := by
        have : ((e.toNat + 65 : Nat) : Int) = e + 65 := by omega
        rw [this, he_def]
        omega
      simp only [htoup, hdec]
      have : ((cu : Int) - 65).toNat + 65 = cu := by omega
      rw [this, ih (kp + 1)]
      simp [hc]
    · rw [vigenere_go, if_neg hc, vigenere_go, if_neg hc, ih kp]
      simp [hc]

/-- **C1.** For every text `T` and every non-empty all-letter key `K`,
`vigenere_decrypt (vigenere_encrypt T K) K` equals `T` with every letter
case-folded to uppercase; moreover both directions of `vigenere_process` leave
a non-letter character unchanged and do not advance the key position. -/
theorem vigenere_roundtrip (text key : List Nat) (hk : key ≠ [])
    (hka : ∀ k ∈ key, isalpha k = true) :
    vigenere_decrypt (vigenere_encrypt text key) key = upcase_letters text ∧
      (∀ (d : Int) (kp : Nat) (c : Nat) (rest : List Nat), isalpha c = false →
        vigenere_go key d kp (c :: rest) = c :: vigenere_go key d kp rest) := by
  constructor
  · exact vigenere_go_roundtrip key hk hka text 0
  · intro d kp c rest hc
    rw [vigenere_go, if_neg (by simp [hc])]

/-- Witness for C1 at `text = "Hi!" = [72, 105, 33]`, `key = "CAB" = [67, 65, 66]`:
the round trip yields `"HI!"` and the non-letter `'!'` passes through. -/
theorem vigenere_roundtrip_witness :
    ([67, 65, 66] : List Nat) ≠ [] ∧ (∀ k ∈ ([67, 65, 66] : List Nat), isalpha k = true) ∧
      (vigenere_decrypt (vigenere_encrypt [72, 105, 33] [67, 65, 66]) [67, 65, 66] =
          upcase_letters [72, 105, 33] ∧
        (∀ (d : Int) (kp : Nat) (c : Nat) (rest : List Nat), isalpha c = false →
          vigenere_go [67, 65, 66] d kp (c :: rest) =
            c :: vigenere_go [67, 65, 66] d kp rest)) :=
  ⟨by decide, by decide,
    vigenere_roundtrip [72, 105, 33] [67, 65, 66] (by decide) (by decide)⟩

/-! ## The decrypt routine embedded in `src/kasiski_attack.cpp` -/

/-- The per-character loop of the `vigenere_decrypt` that is re-implemented
inside `src/kasiski_attack.cpp` (lines 539-559): identical to the primitive's
loop except that the shift is subtracted directly (`pos - shift + 26`). -/
def kasiski_vigenere_go (key : List Nat) : Nat → List Nat → List Nat
  | _, [] => []
  | kp, c :: cs =>
    if isalpha c then
      let cu := toupper c
      let key_letter := toupper (key.getD (kp % key.length) 0)
      let shift : Int := (key_letter : Int) - 65
      let pos : Int := (cu : Int) - 65
      let pos2 : Int := (pos - shift + 26) % 26
      (pos2.toNat + 65) :: kasiski_vigenere_go key (kp + 1) cs
    else
      c :: kasiski_vigenere_go key kp cs

/-- `vigenere_decrypt(text, key)` from `src/kasiski_attack.cpp`. -/
def kasiski_vigenere_decrypt (text key : List Nat) : List Nat :=
  kasiski_vigenere_go key 0 text

theorem kasiski_vigenere_go_eq (key : List Nat) :
    ∀ (cs : List Nat) (kp : Nat),
      kasiski_vigenere_go key kp cs = vigenere_go key (-1) kp cs := by
  intro cs
  induction cs with
  | nil => intro kp; simp [kasiski_vigenere_go, vigenere_go]
  | cons c cs ih =>
    intro kp
    by_cases hc : isalpha c = true
    · rw [kasiski_vigenere_go, if_pos hc, vigenere_go, if_pos hc, ih (kp + 1)]
      simp only [neg_one_mul, sub_eq_add_neg]
    · rw [kasiski_vigenere_go, if_neg hc, vigenere_go, if_neg hc, ih kp]

/-- **C9.** The `vigenere_decrypt` embedded in the Kasiski attack tool computes
the same function as the external Vigenère primitive's decrypt
(`vigenere_process` with direction `-1`): for every text and every non-empty
key the two produce identical output. -/
theorem kasiski_decrypt_eq_primitive (text key : List Nat) (hk : key ≠ []) :
    kasiski_vigenere_decrypt text key = vigenere_process text key (-1) :=
  kasiski_vigenere_go_eq key text 0

/-- Witness for C9 at `text = "Hi!"`, `key = "CAB"`. -/
theorem kasiski_decrypt_eq_primitive_witness :
    ([67, 65, 66] : List Nat) ≠ [] ∧
      kasiski_vigenere_decrypt [72, 105, 33] [67, 65, 66] =
        vigenere_process [72, 105, 33] [67, 65, 66] (-1) :=
  ⟨by decide, kasiski_decrypt_eq_primitive [72, 105, 33] [67, 65, 66] (by decide)⟩

/-! ## `calculate_distances` (`src/kasiski_attack.cpp`, lines 149-162) -/

/-- The double loop of `calculate_distances`: for each pair of indices
`i < j` (outer `i` ascending, inner `j` ascending), push
`positions[j] - positions[i]`. -/
def calculate_distances : List Int → List Int
  | [] => []
  | x :: xs => xs.map (fun y => y - x) ++ calculate_distances xs

theorem calculate_distances_length (ps : List Int) :
    2 * (calculate_distances ps).length = ps.length * (ps.length - 1) := by
  induction ps with
  | nil => simp [calculate_distances]
  | cons x xs ih =>
    rw [calculate_distances]
    simp only [List.length_append, List.length_map, List.length_cons,
      Nat.add_sub_cancel]
    have hsq : (xs.length + 1) * xs.length =
        2 * xs.length + xs.length * (xs.length - 1) := by
      cases hx : xs.length with
      | zero => rfl
      | succ k => simp only [Nat.succ_sub_one]; ring
    omega

theorem calculate_distances_pos {ps : List Int} (hinc : ps.Chain' (· < ·)) :
    ∀ d ∈ calculate_distances ps, 0 < d := by
  induction ps with
  | nil => simp [calculate_distances]
  | cons x xs ih =>
    rw [List.chain'_cons'] at hinc
    intro d hd
    rw [calculate_distances, List.mem_append] at hd
    rcases hd with hd | hd
    · rw [List.mem_map] at hd
      obtain ⟨y, hy, rfl⟩ := hd
      have hpw : xs.Chain' (· < ·) := hinc.2
      have : x < y := by
        rcases xs with _ | ⟨z, zs⟩
        · simp at hy
        · have hxz : x < z := hinc.1 z rfl
          rcases List.mem_cons.mp hy with rfl | hy'
          · exact hxz
          · have := List.chain'_iff_pairwise.mp hinc.2
            exact lt_trans hxz (List.rel_of_pairwise_cons this hy')
      omega
    · exact ih hinc.2 d hd

/-- **C8.** For every strictly increasing position list of length `k ≥ 2`,
`calculate_distances` produces exactly `k*(k-1)/2` distances, and every
produced distance is strictly positive. -/
theorem calculate_distances_spec (ps : List Int) (hk : 2 ≤ ps.length)
    (hinc : ps.Chain' (· < ·)) :
    (calculate_distances ps).length = ps.length * (ps.length - 1) / 2 ∧
      ∀ d ∈ calculate_distances ps, 0 < d := by
  constructor
  · have := calculate_distances_length ps
    omega
  · exact calculate_distances_pos hinc

/-- Witness for C8 at positions `[5, 12, 33]` (the example in the source
comment): three distances `7, 28, 21`, all positive. -/
theorem calculate_distances_spec_witness :
    2 ≤ ([5, 12, 33] : List Int).length ∧ ([5, 12, 33] : List Int).Chain' (· < ·) ∧
      ((calculate_distances [5, 12, 33]).length =
          ([5, 12, 33] : List Int).length * (([5, 12, 33] : List Int).length - 1) / 2 ∧
        ∀ d ∈ calculate_distances [5, 12, 33], 0 < d) :=
  ⟨by decide, by norm_num [List.chain'_cons],
    calculate_distances_spec [5, 12, 33] (by decide) (by norm_num [List.chain'_cons])⟩

/-! ## `gcd` and `gcd_of_vector` (`src/kasiski_attack.cpp`, lines 65-92) -/

theorem natAbs_emod_lt (a : Int) {b : Int} (hb : b ≠ 0) :
    (a % b).natAbs < b.natAbs := by
  have h1 := Int.emod_nonneg a hb
  rcases hb.lt_or_lt with hneg | hpos
  · have h2 := Int.emod_lt_of_pos a (show (0 : Int) < -b by omega)
    rw [Int.emod_neg] at h2
    omega
  · have h2 := Int.emod_lt_of_pos a hpos
    omega

/-- The `while (b != 0) { temp = b; b = a % b; a = temp; }` loop of `gcd`,
written as the equivalent recursion: each iteration replaces `(a, b)` by
`(b, a % b)` and the loop returns `a` once `b == 0`. -/
def gcd (a b : Int) : Int :=
  if b = 0 then a else gcd b (a % b)
termination_by b.natAbs
decreasing_by exact natAbs_emod_lt a (by assumption)

/-- `gcd_of_vector`: `1` for the empty vector, otherwise the left fold of
`gcd` starting from the first element. -/
def gcd_of_vector (l : List Int) : Int :=
  match l with
  | [] => 1
  | x :: xs => xs.foldl gcd x

theorem gcd_spec_aux :
    ∀ (n : Nat) (a b : Int), b.natAbs < n →
      gcd a b ∣ a ∧ gcd a b ∣ b ∧ ∀ e : Int, e ∣ a → e ∣ b → e ∣ gcd a b := by
  intro n
  induction n with
  | zero => intro a b h; omega
  | succ n ih =>
    intro a b hlt
    rw [gcd]
    by_cases hb : b = 0
    · subst hb
      simp only [if_pos rfl]
      exact ⟨dvd_refl a, dvd_zero a, fun e he _ => he⟩
    · rw [if_neg hb]
      obtain ⟨h1, h2, h3⟩ := ih b (a % b) (by
        have := natAbs_emod_lt a hb; omega)
      refine ⟨?_, h1, ?_⟩
      · have hsum : gcd b (a % b) ∣ b * (a / b) + a % b :=
          dvd_add (h1.mul_right _) h2
        rwa [Int.ediv_add_emod] at hsum
      · intro e hea heb
        have hmod : e ∣ a % b := by
          rw [Int.emod_def]
          exact dvd_sub hea (heb.mul_right _)
        exact h3 e heb hmod

theorem gcd_spec (a b : Int) :
    gcd a b ∣ a ∧ gcd a b ∣ b ∧ ∀ e : Int, e ∣ a → e ∣ b → e ∣ gcd a b :=
  gcd_spec_aux (b.natAbs + 1) a b (Nat.lt_succ_self _)

theorem gcd_pos_aux :
    ∀ (n : Nat) (a b : Int), b.natAbs < n → 0 < a → 0 ≤ b → 0 < gcd a b := by
  intro n
  induction n with
  | zero => intro a b h; omega
  | succ n ih =>
    intro a b hlt ha hb0
    rw [gcd]
    by_cases hb : b = 0
    · rw [if_pos hb]; exact ha
    · rw [if_neg hb]
      exact ih b (a % b) (by have := natAbs_emod_lt a hb; omega) (by omega)
        (Int.emod_nonneg a hb)

theorem gcd_pos {a b : Int} (ha : 0 < a) (hb : 0 ≤ b) : 0 < gcd a b :=
  gcd_pos_aux (b.natAbs + 1) a b (Nat.lt_succ_self _) ha hb

theorem foldl_gcd_spec :
    ∀ (xs : List Int) (acc : Int), 0 < acc → (∀ x ∈ xs, 0 < x) →
      0 < xs.foldl gcd acc ∧ xs.foldl gcd acc ∣ acc ∧
        (∀ x ∈ xs, xs.foldl gcd acc ∣ x) ∧
        ∀ e : Int, e ∣ acc → (∀ x ∈ xs, e ∣ x) → e ∣ xs.foldl gcd acc := by
  intro xs
  induction xs with
  | nil =>
    intro acc hacc _
    exact ⟨hacc, dvd_refl _, by simp, fun e he _ => he⟩
  | cons y ys ih =>
    intro acc hacc hpos
    have hy : 0 < y := hpos y (List.mem_cons_self y ys)
    have hg := gcd_spec acc y
    obtain ⟨ihpos, ihdvd, ihall, ihgreat⟩ :=
      ih (gcd acc y) (gcd_pos hacc (le_of_lt hy))
        (fun x hx => hpos x (List.mem_cons_of_mem y hx))
    rw [List.foldl_cons]
    refine ⟨ihpos, ihdvd.trans hg.1, ?_, ?_⟩
    · intro x hx
      rcases List.mem_cons.mp hx with rfl | hx'
      · exact ihdvd.trans hg.2.1
      · exact ihall x hx'
    · intro e hea hall
      exact ihgreat e (hg.2.2 e hea (hall y (List.mem_cons_self y ys)))
        (fun x hx => hall x (List.mem_cons_of_mem y hx))

/-- **C7.** `gcd` computes the greatest common divisor of two positive
integers (it divides both operands and every common divisor divides it, and it
is positive), with `gcd 12 18 = 6`; `gcd_of_vector` returns the sentinel `1`
on the empty collection and the GCD of all elements on every non-empty
collection of positive integers. -/
theorem gcd_correct (a b : Int) (l : List Int) (ha : 0 < a) (hb : 0 < b)
    (hl : ∀ x ∈ l, 0 < x) :
    (0 < gcd a b ∧ gcd a b ∣ a ∧ gcd a b ∣ b ∧
        ∀ e : Int, e ∣ a → e ∣ b → e ∣ gcd a b) ∧
      gcd 12 18 = 6 ∧
      gcd_of_vector [] = 1 ∧
      (l ≠ [] →
        0 < gcd_of_vector l ∧ (∀ x ∈ l, gcd_of_vector l ∣ x) ∧
          ∀ e : Int, (∀ x ∈ l, e ∣ x) → e ∣ gcd_of_vector l) := by
  obtain ⟨h1, h2, h3⟩ := gcd_spec a b
  refine ⟨⟨gcd_pos ha (le_of_lt hb), h1, h2, h3⟩, ?_, rfl, ?_⟩
  · have m1 : (12 : Int) % 18 = 12 := by decide
    have m2 : (18 : Int) % 12 = 6 := by decide
    have m3 : (12 : Int) % 6 = 0 := by decide
    rw [gcd, if_neg (by norm_num), m1, gcd, if_neg (by norm_num), m2,
      gcd, if_neg (by norm_num), m3, gcd, if_pos rfl]
  · intro hne
    match l, hne with
    | x :: xs, _ =>
      have hx : 0 < x := hl x (List.mem_cons_self x xs)
      obtain ⟨hp, hd, hall, hgreat⟩ :=
        foldl_gcd_spec xs x hx (fun z hz => hl z (List.mem_cons_of_mem x hz))
      refine ⟨hp, ?_, ?_⟩
      · intro z hz
        rcases List.mem_cons.mp hz with rfl | hz'
        · exact hd
        · exact hall z hz'
      · intro e he
        exact hgreat e (he x (List.mem_cons_self x xs))
          (fun z hz => he z (List.mem_cons_of_mem x hz))

/-- Witness for C7 at `a = 12`, `b = 18`, `l = [12, 18]`. -/
theorem gcd_correct_witness :
    (0 : Int) < 12 ∧ (0 : Int) < 18 ∧ (∀ x ∈ ([12, 18] : List Int), 0 < x) ∧
      ((0 < gcd 12 18 ∧ gcd 12 18 ∣ 12 ∧ gcd 12 18 ∣ 18 ∧
          ∀ e : Int, e ∣ 12 → e ∣ 18 → e ∣ gcd 12 18) ∧
        gcd 12 18 = 6 ∧
        gcd_of_vector [] = 1 ∧
        (([12, 18] : List Int) ≠ [] →
          0 < gcd_of_vector [12, 18] ∧
            (∀ x ∈ ([12, 18] : List Int), gcd_of_vector [12, 18] ∣ x) ∧
            ∀ e : Int, (∀ x ∈ ([12, 18] : List Int), e ∣ x) →
              e ∣ gcd_of_vector [12, 18])) :=
  ⟨by norm_num, by norm_num, by norm_num,
    gcd_correct 12 18 [12, 18] (by norm_num) (by norm_num) (by norm_num)⟩

/-! ## `calculate_ic` (`src/kasiski_attack.cpp`, lines 285-318) -/

/-- The letter-counting loop shared by `calculate_ic` and
`calculate_frequencies`: `counts[toupper(c) - 'A']++` for every alphabetic
character. -/
def letter_counts (text : List Nat) (i : Nat) : Nat :=
  text.countP (fun c => isalpha c && toupper c - 65 == i)

/-- The running `total` of the same loop: the number of alphabetic
characters. -/
def letter_total (text : List Nat) : Nat :=
  text.countP (fun c => isalpha c)

/-- `calculate_ic`: the guard returns `0.0` for inputs of length `< 2`;
otherwise `Σ_i counts[i]*(counts[i]-1)` divided by `total*(total-1)`. -/
def calculate_ic (text : List Nat) : ℚ :=
  if text.length < 2 then 0
  else
    (∑ i ∈ Finset.range 26,
        (letter_counts text i : ℚ) * ((letter_counts text i : ℚ) - 1)) /
      ((letter_total text : ℚ) * ((letter_total text : ℚ) - 1))

/-- The index-of-coincidence formula as the specification states it:
`Σ_letter count(letter)·(count(letter)-1) / (N·(N-1))` where `N` is the number
of letters and `count` counts case-folded occurrences of each letter. -/
def ic_formula (text : List Nat) : ℚ :=
  let letters := (text.filter (fun c => isalpha c)).map toupper
  let count : Nat → Nat := fun i => letters.count (65 + i)
  (∑ i ∈ Finset.range 26, (count i : ℚ) * ((count i : ℚ) - 1)) /
    ((letters.length : ℚ) * ((letters.length : ℚ) - 1))

theorem letter_counts_eq_formula_count (text : List Nat) (i : Nat) :
    letter_counts text i =
      (((text.filter (fun c => isalpha c)).map toupper).count (65 + i)) := by
  show _ = List.countP (· == 65 + i) _
  rw [List.countP_map, List.countP_filter, letter_counts]
  apply List.countP_congr
  intro c _
  by_cases hc : isalpha c = true
  · have h := toupper_of_alpha hc
    simp only [hc, Bool.true_and, Bool.and_true, Function.comp_apply]
    rw [Bool.eq_iff_iff]
    simp only [beq_iff_eq, iff_true]
    omega
  · simp only [Bool.not_eq_true] at hc
    simp [hc, Function.comp_apply]

theorem letter_total_eq_length (text : List Nat) :
    letter_total text = ((text.filter (fun c => isalpha c)).map toupper).length := by
  rw [List.length_map, letter_total, List.countP_eq_length_filter]

/-- **C6.** `calculate_ic` returns `0` for every input of fewer than 2
characters; for every input of at least 2 characters it returns
`Σ_letter count·(count-1) / (N·(N-1))` with `N` the number of letters; and
`calculate_ic "AAAA" = 1`. -/
theorem calculate_ic_correct (t1 t2 : List Nat) (h1 : t1.length < 2)
    (h2 : 2 ≤ t2.length) :
    calculate_ic t1 = 0 ∧ calculate_ic t2 = ic_formula t2 ∧
      calculate_ic [65, 65, 65, 65] = 1 := by
  refine ⟨by rw [calculate_ic, if_pos h1], ?_, by
    rw [calculate_ic]
    simp only [Finset.sum_range_succ, Finset.sum_range_zero, letter_counts,
      letter_total, List.countP_cons, List.countP_nil, isalpha, toupper]
    norm_num⟩
  rw [calculate_ic, if_neg (by omega), ic_formula]
  simp only [letter_counts_eq_formula_count, letter_total_eq_length]

/-- Witness for C6 at `t1 = "!"` and `t2 = "ABAB"`. -/
theorem calculate_ic_correct_witness :
    ([33] : List Nat).length < 2 ∧ 2 ≤ ([65, 66, 65, 66] : List Nat).length ∧
      (calculate_ic [33] = 0 ∧
        calculate_ic [65, 66, 65, 66] = ic_formula [65, 66, 65, 66] ∧
        calculate_ic [65, 65, 65, 65] = 1) :=
  ⟨by decide, by decide, calculate_ic_correct [33] [65, 66, 65, 66] (by decide) (by decide)⟩

/-! ## `find_repeated_sequences` (`src/kasiski_attack.cpp`, lines 112-140)

The loop header is `for (size_t i = 0; i <= text.length() - n; i++)`.
`text.length()` has type `size_t`, so `text.length() - n` is computed modulo
`2^64`; `text.substr(i, n)` throws `std::out_of_range` as soon as `i`
exceeds `text.length()`. -/

/-- `size_t` subtraction: `a - b` modulo `2^64`. -/
def size_t_sub (a b : Nat) : Nat :=
  (a + (2 ^ 64 - b % 2 ^ 64)) % 2 ^ 64

/-- `std::string::operator<`: lexicographic comparison. -/
def strLt : List Nat → List Nat → Bool
  | [], [] => false
  | [], _ :: _ => true
  | _ :: _, [] => false
  | a :: as, b :: bs => if a < b then true else if b < a then false else strLt as bs

/-- `sequences[ngram].push_back(i)` on the ordered `std::map`: insert the key
in ascending `strLt` order if absent, then append the position. -/
def mapAppend : List (List Nat × List Int) → List Nat → Int → List (List Nat × List Int)
  | [], k, p => [(k, [p])]
  | (k', ps) :: rest, k, p =>
    if strLt k k' then (k, [p]) :: (k', ps) :: rest
    else if strLt k' k then (k', ps) :: mapAppend rest k p
    else (k', ps ++ [p]) :: rest

/-- The n-gram extraction loop.  At each `i ≤ bound` the code evaluates
`text.substr(i, n)`; `substr` throws (`Except.error`) when `i > text.length()`
and otherwise yields the clamped slice `(text.drop i).take n`. -/
def frs_loop (text : List Nat) (n bound : Nat) (i : Nat)
    (m : List (List Nat × List Int)) : Except Unit (List (List Nat × List Int)) :=
  if i ≤ bound then
    if i ≤ text.length then
      frs_loop text n bound (i + 1) (mapAppend m ((text.drop i).take n) (i : Int))
    else
      Except.error ()
  else
    Except.ok m
termination_by bound + 1 - i
decreasing_by omega

/-- `find_repeated_sequences`: run the extraction loop with the `size_t`
bound `text.length() - n`, then erase every entry with fewer than 2
positions. -/
def find_repeated_sequences (text : List Nat) (n : Nat) :
    Except Unit (List (List Nat × List Int)) :=
  (frs_loop text n (size_t_sub text.length n) 0 []).map
    (fun m => m.filter (fun kv => 2 ≤ kv.2.length))

theorem frs_loop_error (text : List Nat) (n bound : Nat)
    (hbound : text.length + 1 ≤ bound) :
    ∀ (fuel i : Nat) (m : List (List Nat × List Int)),
      text.length + 1 - i ≤ fuel → i ≤ text.length + 1 →
      frs_loop text n bound i m = Except.error () := by
  intro fuel
  induction fuel with
  | zero =>
    intro i m hfuel hi
    have hieq : i = text.length + 1 := by omega
    rw [frs_loop, if_pos (by omega), if_neg (by omega)]
  | succ fuel ih =>
    intro i m hfuel hi
    by_cases hend : i = text.length + 1
    · rw [frs_loop, if_pos (by omega), if_neg (by omega)]
    · rw [frs_loop, if_pos (by omega), if_pos (by omega)]
      exact ih (i + 1) _ (by omega) (by omega)

/-- **C2 (refuted: the code crashes instead).**  For every text shorter than
the n-gram length `n` (with `2 ≤ n`, `n` in `int` range), the loop bound
`text.length() - n` wraps around to at least `2^64 - n`, so the scan runs past
the end of the text and `substr` throws `std::out_of_range` instead of
returning an empty mapping. -/
theorem find_repeated_sequences_short_text_throws (text : List Nat) (n : Nat)
    (hn2 : 2 ≤ n) (hnint : n ≤ 2 ^ 31) (hshort : text.length < n) :
    find_repeated_sequences text n = Except.error () := by
  rw [find_repeated_sequences]
  have hbound : text.length + 1 ≤ size_t_sub text.length n := by
    rw [size_t_sub]
    have h1 : n % 2 ^ 64 = n := Nat.mod_eq_of_lt (by
      have : (2 : Nat) ^ 31 < 2 ^ 64 := by norm_num
      omega)
    rw [h1]
    have h2 : text.length + (2 ^ 64 - n) < 2 ^ 64 := by omega
    rw [Nat.mod_eq_of_lt h2]
    omega
  rw [frs_loop_error text n _ hbound (text.length + 1) 0 [] (by omega) (by omega)]
  rfl

/-- Witness for C2's refutation at the failing input `text = "AB"`, `n = 3`
(the trigram pass of `kasiski_analysis` on a 2-letter ciphertext): the scan
throws. -/
theorem find_repeated_sequences_short_text_throws_witness :
    2 ≤ 3 ∧ 3 ≤ 2 ^ 31 ∧ ([65, 66] : List Nat).length < 3 ∧
      find_repeated_sequences [65, 66] 3 = Except.error () :=
  ⟨by norm_num, by norm_num, by norm_num,
    find_repeated_sequences_short_text_throws [65, 66] 3 (by norm_num) (by norm_num)
      (by norm_num)⟩

/-! ## The distance histogram of `kasiski_analysis`
(`src/kasiski_attack.cpp`, lines 249-268)

`distance_freq` is a `std::map<int,int>` (keys in ascending order), copied
into a vector and sorted with `std::sort` under the comparator
`a.second > b.second`.  `std::sort` is not stable: its postcondition is only
that the output is a permutation of the input that is sorted with respect to
the comparator. -/

/-- `distance_freq[d]++` on the ordered `std::map<int,int>`. -/
def mapIncr : List (Int × Nat) → Int → List (Int × Nat)
  | [], d => [(d, 1)]
  | (k, v) :: rest, d =>
    if d < k then (d, 1) :: (k, v) :: rest
    else if d = k then (k, v + 1) :: rest
    else (k, v) :: mapIncr rest d

/-- Building the `distance_freq` map over all collected distances. -/
def distance_freq (ds : List Int) : List (Int × Nat) :=
  ds.foldl mapIncr []

/-- The guarantee `std::sort` gives for `sorted_distances`: the result is a
permutation of the ascending-key map contents that is sorted under the
comparator `a.second > b.second` (i.e. adjacent counts are non-increasing). -/
def sort_output (l out : List (Int × Nat)) : Prop :=
  out.Perm l ∧ out.Chain' (fun a b => b.2 ≤ a.2)

/-- The value stored under key `k` (0 if absent; with distinct keys this is
the map entry). -/
def valAt (m : List (Int × Nat)) (k : Int) : Nat :=
  (m.map (fun p => if p.1 = k then p.2 else 0)).sum

theorem valAt_mapIncr (m : List (Int × Nat)) (d k : Int) :
    valAt (mapIncr m d) k = valAt m k + (if k = d then 1 else 0) := by
  induction m with
  | nil =>
    simp only [mapIncr, valAt, List.map_cons, List.map_nil, List.sum_cons, List.sum_nil]
    by_cases h : k = d
    · rw [if_pos h.symm, if_pos h]; omega
    · rw [if_neg (fun hh => h hh.symm), if_neg h]
  | cons p rest ih =>
    obtain ⟨k', v⟩ := p
    rw [mapIncr]
    by_cases h1 : d < k'
    · rw [if_pos h1]
      simp only [valAt, List.map_cons, List.sum_cons]
      by_cases h : k = d
      · rw [if_pos h.symm, if_pos h]; omega
      · rw [if_neg (fun hh => h hh.symm), if_neg h]; omega
    · rw [if_neg h1]
      by_cases h2 : d = k'
      · rw [if_pos h2]
        simp only [valAt, List.map_cons, List.sum_cons]
        by_cases h : k' = k
        · rw [if_pos h, if_pos h, if_pos (h2.trans h).symm]; omega
        · rw [if_neg h, if_neg h, if_neg (fun hh => h (hh.trans h2).symm)]
          omega
      · rw [if_neg h2]
        simp only [valAt, List.map_cons, List.sum_cons] at ih ⊢
        rw [ih]
        omega

theorem mapIncr_keys (m : List (Int × Nat)) (d : Int) :
    ∀ q ∈ mapIncr m d, q.1 = d ∨ q.1 ∈ m.map Prod.fst := by
  induction m with
  | nil =>
    intro q hq
    simp only [mapIncr, List.mem_singleton] at hq
    subst hq; left; rfl
  | cons p rest ih =>
    obtain ⟨k', v⟩ := p
    intro q hq
    rw [mapIncr] at hq
    by_cases h1 : d < k'
    · rw [if_pos h1] at hq
      rcases List.mem_cons.mp hq with rfl | hq'
      · left; rfl
      · right
        simpa using List.mem_map_of_mem Prod.fst hq'
    · rw [if_neg h1] at hq
      by_cases h2 : d = k'
      · rw [if_pos h2] at hq
        rcases List.mem_cons.mp hq with rfl | hq'
        · right; simp
        · right; simp [List.mem_map_of_mem Prod.fst hq']
      · rw [if_neg h2] at hq
        rcases List.mem_cons.mp hq with rfl | hq'
        · right; simp
        · rcases ih q hq' with h | h
          · left; exact h
          · right; simp only [List.map_cons, List.mem_cons]; right; exact h

theorem mapIncr_sorted {m : List (Int × Nat)} (d : Int)
    (hs : m.Pairwise (fun a b => a.1 < b.1)) :
    (mapIncr m d).Pairwise (fun a b => a.1 < b.1) := by
  induction m with
  | nil => simp [mapIncr]
  | cons p rest ih =>
    obtain ⟨k', v⟩ := p
    rw [List.pairwise_cons] at hs
    rw [mapIncr]
    by_cases h1 : d < k'
    · rw [if_pos h1]
      rw [List.pairwise_cons]
      refine ⟨?_, List.pairwise_cons.mpr hs⟩
      intro q hq
      rcases List.mem_cons.mp hq with rfl | hq'
      · exact h1
      · exact lt_trans h1 (hs.1 q hq')
    · rw [if_neg h1]
      by_cases h2 : d = k'
      · rw [if_pos h2]
        exact List.pairwise_cons.mpr ⟨hs.1, hs.2⟩
      · rw [if_neg h2]
        rw [List.pairwise_cons]
        refine ⟨?_, ih hs.2⟩
        intro q hq
        rcases mapIncr_keys rest d q hq with h | h
        · rw [h]; omega
        · obtain ⟨p', hp', hp'eq⟩ := List.mem_map.mp h
          rw [← hp'eq]
          exact hs.1 p' hp'

theorem valAt_eq_zero_of_not_mem {m : List (Int × Nat)} {k : Int}
    (h : k ∉ m.map Prod.fst) : valAt m k = 0 := by
  induction m with
  | nil => rfl
  | cons p rest ih =>
    simp only [List.map_cons, List.mem_cons] at h
    push_neg at h
    simp only [valAt, List.map_cons, List.sum_cons]
    rw [if_neg (fun hh => h.1 hh.symm)]
    simpa [valAt] using ih h.2

theorem valAt_of_mem {m : List (Int × Nat)} {p : Int × Nat}
    (hs : m.Pairwise (fun a b => a.1 < b.1)) (hp : p ∈ m) :
    valAt m p.1 = p.2 := by
  induction m with
  | nil => simp at hp
  | cons q rest ih =>
    rw [List.pairwise_cons] at hs
    rcases List.mem_cons.mp hp with rfl | hp'
    · simp only [valAt, List.map_cons, List.sum_cons, if_pos rfl]
      have : p.1 ∉ rest.map Prod.fst := by
        intro hmem
        obtain ⟨r, hr, hreq⟩ := List.mem_map.mp hmem
        have := hs.1 r hr
        omega
      rw [show (rest.map fun q => if q.1 = p.1 then q.2 else 0).sum = valAt rest p.1 from rfl,
        valAt_eq_zero_of_not_mem this]
      simp
    · have hne : q.1 ≠ p.1 := by
        have := hs.1 p hp'
        omega
      simp only [valAt, List.map_cons, List.sum_cons, if_neg hne]
      simpa [valAt] using ih hs.2 hp'

theorem distance_freq_invariant (ds : List Int) :
    (distance_freq ds).Pairwise (fun a b => a.1 < b.1) ∧
      (∀ k : Int, valAt (distance_freq ds) k = ds.count k) ∧
      (∀ q ∈ distance_freq ds, q.1 ∈ ds) := by
  rw [distance_freq]
  suffices h : ∀ (seen : List Int) (m : List (Int × Nat)),
      m.Pairwise (fun a b => a.1 < b.1) →
      (∀ k : Int, valAt m k = seen.count k) →
      (∀ q ∈ m, q.1 ∈ seen) →
      (ds.foldl mapIncr m).Pairwise (fun a b => a.1 < b.1) ∧
        (∀ k : Int, valAt (ds.foldl mapIncr m) k = (seen ++ ds).count k) ∧
        (∀ q ∈ ds.foldl mapIncr m, q.1 ∈ seen ++ ds) by
    have := h [] [] (by simp) (by simp [valAt]) (by simp)
    simpa using this
  induction ds with
  | nil =>
    intro seen m h1 h2 h3
    rw [List.foldl_nil]
    refine ⟨h1, ?_, ?_⟩
    · intro k; rw [List.append_nil]; exact h2 k
    · intro q hq; rw [List.append_nil]; exact h3 q hq
  | cons d rest ih =>
    intro seen m h1 h2 h3
    rw [List.foldl_cons]
    have step := ih (seen ++ [d]) (mapIncr m d) (mapIncr_sorted d h1)
      (by
        intro k
        rw [valAt_mapIncr, h2, List.count_append]
        simp [List.count_singleton', eq_comm])
      (by
        intro q hq
        rcases mapIncr_keys m d q hq with h | h
        · simp [h]
        · obtain ⟨p', hp', hp'eq⟩ := List.mem_map.mp h
          simp only [List.mem_append, List.mem_singleton]
          left
          rw [← hp'eq]
          exact h3 p' hp')
    simpa using step

/-- Counterexample to **C5**: on the distance collection `[1, 2]` the map
contents are `[(1,1), (2,1)]`; the output `[(2,1), (1,1)]` satisfies
everything `std::sort` guarantees under the comparator `a.second > b.second`,
yet its equal-count entries are in descending distance order. -/
theorem distance_histogram_tie_counterexample :
    sort_output (distance_freq [1, 2]) [(2, 1), (1, 1)] ∧
      ¬ List.Pairwise (fun a b : Int × Nat => a.2 = b.2 → a.1 < b.1)
          [(2, 1), (1, 1)] := by
  constructor
  · constructor
    · have : distance_freq [1, 2] = [(1, 1), (2, 1)] := by
        simp [distance_freq, mapIncr]
      rw [this]
      exact List.Perm.swap _ _ _
    · simp [List.chain'_cons]
  · intro h
    rw [List.pairwise_cons] at h
    have := h.1 (1, 1) (by simp)
    simp at this

/-- **C5 (amended).**  The histogram is a permutation of the distinct-key
ascending `std::map` contents: every entry's count is the multiplicity of its
distance among the collected distances, entries have pairwise distinct
distances, and the output of `std::sort` is non-increasing in occurrence
count; the relative order of entries with equal counts is *not* specified
(`std::sort` is unstable). -/
theorem distance_histogram_order (ds : List Int) (out : List (Int × Nat))
    (h : sort_output (distance_freq ds) out) :
    out.Pairwise (fun a b => b.2 ≤ a.2) ∧
      out.Pairwise (fun a b => a.1 ≠ b.1) ∧
      (∀ p ∈ out, p.2 = ds.count p.1 ∧ p.1 ∈ ds) ∧
      ∀ d ∈ ds, ∃ p ∈ out, p.1 = d := by
  obtain ⟨hperm, hchain⟩ := h
  obtain ⟨hsorted, hval, hmem⟩ := distance_freq_invariant ds
  haveI : IsTrans (Int × Nat) (fun a b => b.2 ≤ a.2) :=
    ⟨fun _ _ _ h1 h2 => le_trans h2 h1⟩
  refine ⟨List.chain'_iff_pairwise.mp hchain, ?_, ?_, ?_⟩
  · have hne : (distance_freq ds).Pairwise (fun a b => a.1 ≠ b.1) :=
      hsorted.imp (fun h => by omega)
    exact (hperm.pairwise_iff (fun h => Ne.symm h)).mpr hne
  · intro p hp
    have hpin : p ∈ distance_freq ds := hperm.mem_iff.mp hp
    exact ⟨by rw [← hval p.1, valAt_of_mem hsorted hpin], hmem p hpin⟩
  · intro d hd
    have hcount : 0 < ds.count d := List.count_pos_iff.mpr hd
    rw [← hval d] at hcount
    by_cases hin : d ∈ (distance_freq ds).map Prod.fst
    · obtain ⟨p, hp, hpeq⟩ := List.mem_map.mp hin
      exact ⟨p, hperm.mem_iff.mpr hp, hpeq⟩
    · rw [valAt_eq_zero_of_not_mem hin] at hcount
      omega

/-- Witness for the amended C5 at `ds = [3, 3, 9]` with the (unique, here)
valid sort output `[(3, 2), (9, 1)]`. -/
theorem distance_histogram_order_witness :
    sort_output (distance_freq [3, 3, 9]) [(3, 2), (9, 1)] ∧
      (List.Pairwise (fun a b : Int × Nat => b.2 ≤ a.2) [(3, 2), (9, 1)] ∧
        List.Pairwise (fun a b : Int × Nat => a.1 ≠ b.1) [(3, 2), (9, 1)] ∧
        (∀ p ∈ ([(3, 2), (9, 1)] : List (Int × Nat)),
          p.2 = ([3, 3, 9] : List Int).count p.1 ∧ p.1 ∈ ([3, 3, 9] : List Int)) ∧
        ∀ d ∈ ([3, 3, 9] : List Int),
          ∃ p ∈ ([(3, 2), (9, 1)] : List (Int × Nat)), p.1 = d) := by
  have hso : sort_output (distance_freq [3, 3, 9]) [(3, 2), (9, 1)] := by
    constructor
    · have : distance_freq [3, 3, 9] = [(3, 2), (9, 1)] := by
        simp [distance_freq, mapIncr]
      rw [this]
    · simp [List.chain'_cons]
  exact ⟨hso, distance_histogram_order [3, 3, 9] [(3, 2), (9, 1)] hso⟩

/-! ## Columnar splitting (`src/kasiski_attack.cpp`, lines 340-344 and 505-509)

Both `test_key_lengths_ic` and `recover_key` run
`for (i...) columns[i % L] += ciphertext[i];` starting from `L` empty
columns. -/

/-- The loop `for (i...) columns[i % L] += ciphertext[i];` over the enumerated
text, starting from `key_len` empty strings. -/
def splitColumns (c : List Nat) (L : Nat) : List (List Nat) :=
  c.enum.foldl
    (fun cols p => cols.set (p.1 % L) (cols.getD (p.1 % L) [] ++ [p.2]))
    (List.replicate L [])

/-- The number of positions `i < n` with `i % L = j`, i.e. the length of
column `j`. -/
def colLen (n L j : Nat) : Nat :=
  (List.range n).countP (fun i => i % L == j)

/-- Column `j` described positionally: the characters at positions
`j, j + L, j + 2L, ...`. -/
def columnSpec (c : List Nat) (L j : Nat) : List Nat :=
  (List.range (colLen c.length L j)).map (fun k => c.getD (j + k * L) 0)

theorem succ_div_mod_of_eq (n L : Nat) (hL : 0 < L) (h : n % L + 1 = L) :
    (n + 1) / L = n / L + 1 ∧ (n + 1) % L = 0 := by
  have h3 := Nat.div_add_mod n L
  have hexp : L * (n / L + 1) = L * (n / L) + L := by ring
  exact (Nat.div_mod_unique hL).mpr ⟨by omega, hL⟩

theorem succ_div_mod_of_lt (n L : Nat) (hL : 0 < L) (h : n % L + 1 < L) :
    (n + 1) / L = n / L ∧ (n + 1) % L = n % L + 1 := by
  have h3 := Nat.div_add_mod n L
  exact (Nat.div_mod_unique hL).mpr ⟨by omega, h⟩

theorem colLen_succ (n L j : Nat) :
    colLen (n + 1) L j = colLen n L j + if n % L = j then 1 else 0 := by
  rw [colLen, colLen, List.range_succ, List.countP_append]
  simp [List.countP_cons, beq_iff_eq]

theorem colLen_closed (L j : Nat) (hL : 0 < L) (hj : j < L) (n : Nat) :
    colLen n L j = n / L + if j < n % L then 1 else 0 := by
  induction n with
  | zero => simp [colLen]
  | succ n ih =>
    rw [colLen_succ, ih]
    have hml : n % L < L := Nat.mod_lt _ hL
    by_cases hc : n % L + 1 = L
    · obtain ⟨hd, hm⟩ := succ_div_mod_of_eq n L hL hc
      rw [hd, hm]
      split_ifs <;> omega
    · obtain ⟨hd, hm⟩ := succ_div_mod_of_lt n L hL (by omega)
      rw [hd, hm]
      split_ifs <;> omega

theorem pos_lt_of_lt_colLen {n L j k : Nat} (hL : 0 < L) (hj : j < L)
    (hk : k < colLen n L j) : j + k * L < n := by
  rw [colLen_closed L j hL hj n] at hk
  have h3 := Nat.div_add_mod n L
  have hml : n % L < L := Nat.mod_lt _ hL
  have hcm : L * (n / L) = (n / L) * L := Nat.mul_comm L (n / L)
  by_cases hc : j < n % L
  · rw [if_pos hc] at hk
    have hmul : k * L ≤ (n / L) * L := Nat.mul_le_mul_right L (by omega)
    omega
  · rw [if_neg hc] at hk
    have hmul : (k + 1) * L ≤ (n / L) * L := Nat.mul_le_mul_right L (by omega)
    have hexp : (k + 1) * L = k * L + L := by ring
    omega

theorem columnSpec_append_ne (c : List Nat) (x : Nat) (L j : Nat) (hL : 0 < L)
    (hj : j < L) (hne : c.length % L ≠ j) :
    columnSpec (c ++ [x]) L j = columnSpec c L j := by
  rw [columnSpec, columnSpec, List.length_append, List.length_singleton,
    colLen_succ, if_neg hne, Nat.add_zero]
  apply List.map_congr_left
  intro k hk
  rw [List.mem_range] at hk
  have hpos : j + k * L < c.length := pos_lt_of_lt_colLen hL hj hk
  rw [List.getD_eq_getElem _ _ (by simpa using Nat.lt_succ_of_lt hpos),
    List.getD_eq_getElem _ _ hpos]
  exact List.getElem_append_left hpos

theorem columnSpec_append_eq (c : List Nat) (x : Nat) (L : Nat) (hL : 0 < L) :
    columnSpec (c ++ [x]) L (c.length % L) =
      columnSpec c L (c.length % L) ++ [x] := by
  have hr : c.length % L < L := Nat.mod_lt _ hL
  rw [columnSpec, columnSpec, List.length_append, List.length_singleton,
    colLen_succ, if_pos rfl, List.range_succ, List.map_append]
  congr 1
  · apply List.map_congr_left
    intro k hk
    rw [List.mem_range] at hk
    have hpos : c.length % L + k * L < c.length := pos_lt_of_lt_colLen hL hr hk
    rw [List.getD_eq_getElem _ _ (by simpa using Nat.lt_succ_of_lt hpos),
      List.getD_eq_getElem _ _ hpos]
    exact List.getElem_append_left hpos
  · have hcl : colLen c.length L (c.length % L) = c.length / L := by
      rw [colLen_closed L _ hL hr, if_neg (lt_irrefl _), Nat.add_zero]
    have hn : c.length % L + colLen c.length L (c.length % L) * L = c.length := by
      rw [hcl]
      exact Nat.mod_add_div' c.length L
    simp only [List.map_singleton, hn]
    rw [List.getD_eq_getElem _ _ (by simp)]
    congr 1
    exact List.getElem_concat_length c x c.length rfl (by simp)

theorem splitColumns_append (c : List Nat) (x : Nat) (L : Nat) :
    splitColumns (c ++ [x]) L =
      (splitColumns c L).set (c.length % L)
        ((splitColumns c L).getD (c.length % L) [] ++ [x]) := by
  rw [splitColumns, splitColumns, List.enum_append, List.foldl_append]
  rfl

theorem splitColumns_eq (c : List Nat) (L : Nat) (hL : 0 < L) :
    splitColumns c L = (List.range L).map (fun j => columnSpec c L j) := by
  induction c using List.reverseRecOn with
  | nil =>
    rw [splitColumns]
    simp only [List.enum_nil, List.foldl_nil]
    apply List.ext_getElem
    · simp
    · intro j h1 h2
      simp [columnSpec, colLen]
  | append_singleton c x ih =>
    have hr : c.length % L < L := Nat.mod_lt _ hL
    rw [splitColumns_append, ih]
    have hgetD : ((List.range L).map (fun j => columnSpec c L j)).getD
        (c.length % L) [] = columnSpec c L (c.length % L) := by
      rw [List.getD_eq_getElem _ _ (by simpa using hr)]
      simp
    rw [hgetD]
    apply List.ext_getElem
    · simp
    · intro j hj1 hj2
      have hjL : j < L := by simpa using hj2
      by_cases hjr : c.length % L = j
      · subst hjr
        rw [List.getElem_set_self (by simpa using hr)]
        simp only [List.getElem_map, List.getElem_range]
        exact (columnSpec_append_eq c x L hL).symm
      · rw [List.getElem_set_ne hjr]
        simp only [List.getElem_map, List.getElem_range]
        exact (columnSpec_append_ne c x L j hL hjL hjr).symm

theorem sum_map_add_nat {α : Type} (l : List α) (f g : α → Nat) :
    (l.map (fun a => f a + g a)).sum = (l.map f).sum + (l.map g).sum := by
  induction l with
  | nil => simp
  | cons b bs ih => simp only [List.map_cons, List.sum_cons, ih]; omega

theorem sum_map_indicator (l : List Nat) (a : Nat) :
    (l.map (fun j => if a = j then 1 else 0)).sum = l.count a := by
  induction l with
  | nil => simp
  | cons b bs ih =>
    simp only [List.map_cons, List.sum_cons, ih, List.count_cons, beq_iff_eq]
    by_cases h : a = b
    · rw [if_pos h, if_pos h.symm]; omega
    · rw [if_neg h, if_neg (fun hh => h hh.symm)]; omega

theorem sum_colLen (L : Nat) (hL : 0 < L) (n : Nat) :
    ((List.range L).map (fun j => colLen n L j)).sum = n := by
  induction n with
  | zero =>
    have hz : ∀ j ∈ List.range L, colLen 0 L j = 0 := by
      intro j _
      simp [colLen]
    rw [List.map_congr_left hz]
    simp
  | succ n ih =>
    have hstep : ((List.range L).map (fun j => colLen (n + 1) L j)).sum =
        ((List.range L).map (fun j => colLen n L j)).sum +
          ((List.range L).map (fun j => if n % L = j then 1 else 0)).sum := by
      rw [← sum_map_add_nat]
      apply congrArg
      apply List.map_congr_left
      intro j _
      exact colLen_succ n L j
    rw [hstep, ih, sum_map_indicator]
    have : (List.range L).count (n % L) = 1 :=
      List.count_eq_one_of_mem (List.nodup_range L)
        (List.mem_range.mpr (Nat.mod_lt _ hL))
    omega

theorem div_lt_colLen {n L i : Nat} (hL : 0 < L) (hi : i < n) :
    i / L < colLen n L (i % L) := by
  rw [colLen_closed L (i % L) hL (Nat.mod_lt _ hL) n]
  have h1 := Nat.div_add_mod i L
  have h2 := Nat.div_add_mod n L
  have h3 : i / L ≤ n / L := Nat.div_le_div_right (le_of_lt hi)
  have hmi : i % L < L := Nat.mod_lt _ hL
  have hmn : n % L < L := Nat.mod_lt _ hL
  by_cases hq : i / L = n / L
  · rw [hq] at h1
    have hlt : i % L < n % L := by omega
    rw [if_pos hlt]
    omega
  · split_ifs <;> omega

/-- Re-interleaving columns by position modulo `L`: position `i` is read from
column `i % L` at offset `i / L`. -/
def interleave (cols : List (List Nat)) (L n : Nat) : List Nat :=
  (List.range n).map (fun i => (cols.getD (i % L) []).getD (i / L) 0)

/-- **C3.** For every ciphertext and key length `L ≥ 1`, splitting into
columns by position modulo `L` yields column lengths that sum to the text
length and pairwise differ by at most 1, and re-interleaving the columns by
position modulo `L` reconstructs the text exactly. -/
theorem splitColumns_spec (c : List Nat) (L : Nat) (hL : 1 ≤ L) :
    ((splitColumns c L).map List.length).sum = c.length ∧
      (∀ j1 < L, ∀ j2 < L,
        ((splitColumns c L).getD j1 []).length ≤
          ((splitColumns c L).getD j2 []).length + 1) ∧
      interleave (splitColumns c L) L c.length = c := by
  have hL0 : 0 < L := hL
  have hchar := splitColumns_eq c L hL0
  have hcol : ∀ j, j < L → (splitColumns c L).getD j [] = columnSpec c L j := by
    intro j hj
    rw [hchar, List.getD_eq_getElem _ _ (by simpa using hj)]
    simp
  have hcollen : ∀ j, j < L →
      ((splitColumns c L).getD j [] : List Nat).length = colLen c.length L j := by
    intro j hj
    rw [hcol j hj, columnSpec, List.length_map, List.length_range]
  refine ⟨?_, ?_, ?_⟩
  · rw [hchar, List.map_map]
    have : (List.length ∘ fun j => columnSpec c L j) = fun j => colLen c.length L j := by
      funext j
      simp [columnSpec]
    rw [this, sum_colLen L hL0]
  · intro j1 hj1 j2 hj2
    rw [hcollen j1 hj1, hcollen j2 hj2,
      colLen_closed L j1 hL0 hj1, colLen_closed L j2 hL0 hj2]
    split_ifs <;> omega
  · apply List.ext_getElem
    · simp [interleave]
    · intro i hi1 hi2
      have hin : i < c.length := hi2
      have himod : i % L < L := Nat.mod_lt _ hL0
      simp only [interleave, List.getElem_map, List.getElem_range]
      rw [hcol (i % L) himod, columnSpec,
        List.getD_eq_getElem _ _ (by
          rw [List.length_map, List.length_range]
          exact div_lt_colLen hL0 hin)]
      simp only [List.getElem_map, List.getElem_range]
      rw [Nat.mod_add_div' i L, List.getD_eq_getElem _ _ hin]

/-- Witness for C3 at `c = "ABCDE"`, `L = 2`. -/
theorem splitColumns_spec_witness :
    1 ≤ 2 ∧
      (((splitColumns [65, 66, 67, 68, 69] 2).map List.length).sum =
          ([65, 66, 67, 68, 69] : List Nat).length ∧
        (∀ j1 < 2, ∀ j2 < 2,
          ((splitColumns [65, 66, 67, 68, 69] 2).getD j1 []).length ≤
            ((splitColumns [65, 66, 67, 68, 69] 2).getD j2 []).length + 1) ∧
        interleave (splitColumns [65, 66, 67, 68, 69] 2) 2
            ([65, 66, 67, 68, 69] : List Nat).length = [65, 66, 67, 68, 69]) :=
  ⟨by norm_num, splitColumns_spec [65, 66, 67, 68, 69] 2 (by norm_num)⟩

/-! ## `break_caesar_shift` (`src/kasiski_attack.cpp`, lines 393-485) -/

/-- The reference English letter-frequency table `ENGLISH_FREQ`
(percentages). -/
def ENGLISH_FREQ : List ℚ :=
  [8.2, 1.5, 2.8, 4.3, 13.0, 2.2, 2.0, 6.1, 7.0, 0.15, 0.77, 4.0, 2.4,
   6.7, 7.5, 1.9, 0.095, 6.0, 6.3, 9.1, 2.8, 0.98, 2.4, 0.15, 2.0, 0.074]

/-- Indexing into `ENGLISH_FREQ` (a C array of 26 doubles). -/
def englishE (i : Nat) : ℚ :=
  ENGLISH_FREQ.getD i 0

/-- `calculate_frequencies`: `freq[i] = total > 0 ? counts[i]*100.0/total : 0.0`. -/
def calculate_frequencies (text : List Nat) (i : Nat) : ℚ :=
  if 0 < letter_total text then
    (letter_counts text i : ℚ) * 100 / (letter_total text : ℚ)
  else 0

/-- `chi_squared`: sum of `diff*diff/expected[i]` over the letters whose
expected frequency is positive. -/
def chi_squared (observed expected : Nat → ℚ) : ℚ :=
  ∑ i ∈ Finset.range 26,
    if 0 < expected i then
      (observed i - expected i) * (observed i - expected i) / expected i
    else 0

/-- The inner decryption loop of `break_caesar_shift`: every alphabetic
character is replaced by `'A' + (toupper(c) - 'A' - shift + 26) % 26`;
non-alphabetic characters are skipped. -/
def decrypt_column (column : List Nat) (shift : Nat) : List Nat :=
  column.filterMap (fun c =>
    if isalpha c then
      some (((((toupper c : Int) - 65) - shift + 26) % 26).toNat + 65)
    else none)

/-- The chi-squared score of trying `shift` on `column`. -/
def chi2_of_shift (column : List Nat) (shift : Nat) : ℚ :=
  chi_squared (calculate_frequencies (decrypt_column column shift)) englishE

/-- The `for (shift...)` minimization loop of `break_caesar_shift`, with
initial state `best_chi2 = 999999.0`, `best_shift = 'A'`; an improvement at
shift `s` stores `'A' + s`. -/
def minFold (f : Nat → ℚ) (B : ℚ) (c0 : Nat) (n : Nat) : ℚ × Nat :=
  (List.range n).foldl (fun best s => if f s < best.1 then (f s, 65 + s) else best)
    (B, c0)

/-- `break_caesar_shift`: run the minimization loop over shifts `0..25` and
return the best shift as a letter code. -/
def break_caesar_shift (column : List Nat) : Nat :=
  (minFold (chi2_of_shift column) 999999 65 26).2

theorem letter_counts_le_total (text : List Nat) (i : Nat) :
    letter_counts text i ≤ letter_total text := by
  apply List.countP_mono_left
  intro c _ h
  rw [Bool.and_eq_true] at h
  exact h.1

theorem freq_bounds (text : List Nat) (i : Nat) :
    0 ≤ calculate_frequencies text i ∧ calculate_frequencies text i ≤ 100 := by
  rw [calculate_frequencies]
  split_ifs with h
  · have hc := letter_counts_le_total text i
    have hc' : (letter_counts text i : ℚ) ≤ (letter_total text : ℚ) := by
      exact_mod_cast hc
    have ht : (0 : ℚ) < (letter_total text : ℚ) := by exact_mod_cast h
    constructor
    · positivity
    · rw [div_le_iff ht]
      linarith
  · norm_num

theorem english_bounds : ∀ i ∈ Finset.range 26, 0 < englishE i ∧ englishE i ≤ 100 := by
  intro i hi
  fin_cases hi <;> norm_num [englishE, ENGLISH_FREQ]

theorem sum_english_bound :
    (∑ i ∈ Finset.range 26, 10000 / englishE i) < 999999 := by
  norm_num [Finset.sum_range_succ, englishE, ENGLISH_FREQ]

theorem chi2_lt_sentinel (text : List Nat) :
    chi_squared (calculate_frequencies text) englishE < 999999 := by
  have hle : chi_squared (calculate_frequencies text) englishE ≤
      ∑ i ∈ Finset.range 26, 10000 / englishE i := by
    rw [chi_squared]
    apply Finset.sum_le_sum
    intro i hi
    obtain ⟨he1, he2⟩ := english_bounds i hi
    obtain ⟨hf1, hf2⟩ := freq_bounds text i
    rw [if_pos he1, div_le_div_iff he1 he1]
    set f := calculate_frequencies text i
    set e := englishE i
    have hd1 : (0 : ℚ) ≤ 100 - (f - e) := by linarith
    have hd2 : (0 : ℚ) ≤ (f - e) + 100 := by linarith
    have hsq : (f - e) * (f - e) ≤ 10000 := by nlinarith [mul_nonneg hd1 hd2]
    exact mul_le_mul_of_nonneg_right hsq (le_of_lt he1)
  exact lt_of_le_of_lt hle sum_english_bound

theorem minFold_spec (f : Nat → ℚ) (B : ℚ) (c0 : Nat) :
    ∀ n : Nat,
      (∀ i < n, (minFold f B c0 n).1 ≤ f i) ∧ (minFold f B c0 n).1 ≤ B ∧
        (minFold f B c0 n = (B, c0) ∨
          ∃ j, j < n ∧ (minFold f B c0 n).1 = f j ∧ f j < B ∧
            (minFold f B c0 n).2 = 65 + j ∧ ∀ t, t < j → f j < f t) := by
  intro n
  induction n with
  | zero =>
    exact ⟨fun i hi => absurd hi (Nat.not_lt_zero i), le_refl B, Or.inl rfl⟩
  | succ n ih =>
    obtain ⟨ih1, ih2, ih3⟩ := ih
    have hstep : minFold f B c0 (n + 1) =
        (if f n < (minFold f B c0 n).1 then (f n, 65 + n) else minFold f B c0 n) := by
      rw [minFold, minFold, List.range_succ, List.foldl_append, List.foldl_cons,
        List.foldl_nil]
    by_cases hlt : f n < (minFold f B c0 n).1
    · rw [hstep, if_pos hlt]
      refine ⟨?_, by simpa using le_of_lt (lt_of_lt_of_le hlt ih2), Or.inr ?_⟩
      · intro i hi
        rcases Nat.lt_succ_iff_lt_or_eq.mp hi with hi' | rfl
        · exact le_of_lt (lt_of_lt_of_le hlt (ih1 i hi'))
        · exact le_refl _
      · refine ⟨n, Nat.lt_succ_self n, rfl, lt_of_lt_of_le hlt ih2, rfl, ?_⟩
        intro t ht
        exact lt_of_lt_of_le hlt (ih1 t ht)
    · rw [hstep, if_neg hlt]
      refine ⟨?_, ih2, ?_⟩
      · intro i hi
        rcases Nat.lt_succ_iff_lt_or_eq.mp hi with hi' | rfl
        · exact ih1 i hi'
        · exact le_of_not_lt hlt
      · rcases ih3 with heq | ⟨j, hj, h1, h2, h3, h4⟩
        · exact Or.inl heq
        · exact Or.inr ⟨j, Nat.lt_succ_of_lt hj, h1, h2, h3, h4⟩

/-- **C4.** For every column of uppercase letters, `break_caesar_shift`
returns `'A' + s` where `s ∈ [0,25]` minimizes the chi-squared distance
between the letter frequencies of the column decrypted by `s` and the English
reference table, and `s` is the smallest shift attaining the minimum. -/
theorem break_caesar_shift_spec (column : List Nat)
    (hcol : ∀ c ∈ column, 65 ≤ c ∧ c ≤ 90) :
    ∃ s : Nat, s < 26 ∧ break_caesar_shift column = 65 + s ∧
      (∀ t < 26, chi2_of_shift column s ≤ chi2_of_shift column t) ∧
      ∀ t < s, chi2_of_shift column s < chi2_of_shift column t := by
  obtain ⟨h1, h2, h3⟩ := minFold_spec (chi2_of_shift column) 999999 65 26
  have hall : ∀ i, chi2_of_shift column i < 999999 := fun i =>
    chi2_lt_sentinel (decrypt_column column i)
  rcases h3 with heq | ⟨j, hj, hval, hlt, hshift, hleast⟩
  · exfalso
    have h0 := h1 0 (by norm_num)
    rw [heq] at h0
    exact absurd (lt_of_lt_of_le (hall 0) h0) (lt_irrefl _)
  · refine ⟨j, hj, ?_, ?_, ?_⟩
    · rw [break_caesar_shift, hshift]
    · intro t ht
      rw [← hval]
      exact h1 t ht
    · exact fun t ht => hleast t ht

/-- Witness for C4 at the uppercase column `"HELLO" = [72, 69, 76, 76, 79]`. -/
theorem break_caesar_shift_spec_witness :
    (∀ c ∈ ([72, 69, 76, 76, 79] : List Nat), 65 ≤ c ∧ c ≤ 90) ∧
      ∃ s : Nat, s < 26 ∧ break_caesar_shift [72, 69, 76, 76, 79] = 65 + s ∧
        (∀ t < 26,
          chi2_of_shift [72, 69, 76, 76, 79] s ≤ chi2_of_shift [72, 69, 76, 76, 79] t) ∧
        ∀ t < s,
          chi2_of_shift [72, 69, 76, 76, 79] s < chi2_of_shift [72, 69, 76, 76, 79] t :=
  ⟨by decide, break_caesar_shift_spec [72, 69, 76, 76, 79] (by decide)⟩

/-! ## `recover_key` (`src/kasiski_attack.cpp`, lines 494-530) -/

/-- `recover_key`: split into `key_length` columns, break each column as a
Caesar cipher, and concatenate the resulting letters in column order. -/
def recover_key (ciphertext : List Nat) (key_length : Nat) : List Nat :=
  (List.range key_length).map (fun i =>
    break_caesar_shift ((splitColumns ciphertext key_length).getD i []))

theorem chi2_of_shift_empty (s : Nat) :
    chi2_of_shift [] s = chi2_of_shift [] 0 := rfl

theorem break_caesar_shift_empty : break_caesar_shift [] = 65 := by
  obtain ⟨s, hs, heq, _, hleast⟩ := break_caesar_shift_spec [] (by simp)
  have hzero : s = 0 := by
    by_contra hne
    have h0 := hleast 0 (Nat.pos_of_ne_zero hne)
    rw [chi2_of_shift_empty s] at h0
    exact absurd h0 (lt_irrefl _)
  rw [heq, hzero]

theorem column_empty_of_ge {c : List Nat} {L j : Nat} (hL : c.length < L)
    (hj1 : c.length ≤ j) (hj2 : j < L) :
    (splitColumns c L).getD j [] = columnSpec c L j ∧ columnSpec c L j = [] := by
  have hL0 : 0 < L := by omega
  constructor
  · rw [splitColumns_eq c L hL0, List.getD_eq_getElem _ _ (by simpa using hj2)]
    simp
  · rw [columnSpec]
    have hcl : colLen c.length L j = 0 := by
      rw [colLen]
      rw [List.countP_eq_zero]
      intro i hi
      rw [List.mem_range] at hi
      have : i % L = i := Nat.mod_eq_of_lt (by omega)
      simp only [beq_iff_eq, this]
      omega
    rw [hcl]
    simp

/-- **C10.** `break_caesar_shift` on the empty column returns `'A'` (every
shift scores the same chi-squared, so the tie-break keeps shift 0), and
`recover_key` with a key length `L` larger than the ciphertext length returns
a full `L`-letter key whose letters for the empty columns (positions at and
beyond the ciphertext length) are all `'A'`. -/
theorem recover_key_overlong (c : List Nat) (L : Nat) (hL : c.length < L) :
    break_caesar_shift [] = 65 ∧ (recover_key c L).length = L ∧
      ∀ j, c.length ≤ j → j < L → (recover_key c L).getD j 0 = 65 := by
  refine ⟨break_caesar_shift_empty, by simp [recover_key], ?_⟩
  intro j hj1 hj2
  obtain ⟨hc1, hc2⟩ := column_empty_of_ge hL hj1 hj2
  rw [recover_key, List.getD_eq_getElem _ _ (by simpa using hj2)]
  simp only [List.getElem_map, List.getElem_range]
  rw [hc1, hc2, break_caesar_shift_empty]

/-- Witness for C10 at `c = "A" = [65]`, `L = 3`. -/
theorem recover_key_overlong_witness :
    ([65] : List Nat).length < 3 ∧
      (break_caesar_shift [] = 65 ∧ (recover_key [65] 3).length = 3 ∧
        ∀ j, ([65] : List Nat).length ≤ j → j < 3 → (recover_key [65] 3).getD j 0 = 65) :=
  ⟨by norm_num, recover_key_overlong [65] 3 (by norm_num)⟩

end Caesar
